import Mathlib

/-!
Shallow embedding of `tools/mavlink_json_generator/crc_calculator.py`:
the MAVLink X.25 CRC accumulator, the field-ordering policy, the
`crc_extra` definition checksum and the field-offset layout pass.

Conventions of the embedding:
* Python `int` values that are only ever non-negative (CRC states, byte
  values obtained from `ord`, bit widths) are `Nat`; values that may be
  negative (parsed array lengths, byte offsets) are `Int`.
* Masking `x & 0xFF` / `x & 0xFFFF` is written `x % 256` / `x % 65536`.
* Python code that can raise (`str.index`, `int(...)`) is modelled with
  `Option`: `none` is the raised exception propagating to the caller.
* Python strings are Lean `String`s, iterated through their character
  lists; `ord` is `Char.toNat`.
-/

set_option maxRecDepth 100000

namespace CrcCalculator

/-- A raw field descriptor: the `{'name': ..., 'type': ..., 'extension': ...}`
dictionaries consumed by `crc_calculator.py`. -/
structure Field where
  name : String
  type : String
  extension : Bool
deriving DecidableEq

/-- `crc16_mcrf4xx(data, crc)`: the X.25 / MCRF4XX CRC-16 left fold over a
byte string. Elements of a Python `bytes` object are guaranteed to lie in
`0..255`; the loop body itself does not mask the byte. -/
def crc16_mcrf4xx (data : List Nat) (crc : Nat := 0xFFFF) : Nat :=
  data.foldl (fun crc byte =>
    let tmp := byte ^^^ (crc % 256)
    let tmp := (tmp ^^^ (tmp <<< 4)) % 256
    ((crc >>> 8) ^^^ (tmp <<< 8) ^^^ (tmp <<< 3) ^^^ (tmp >>> 4)) % 65536) crc

/-- `accumulate_byte(byte, crc)`: single-byte CRC transition; unlike
`crc16_mcrf4xx` it first masks its argument with `byte & 0xFF`, so any
Python integer is accepted. -/
def accumulate_byte (byte : Int) (crc : Nat := 0xFFFF) : Nat :=
  let byte := (byte % 256).toNat
  let tmp := byte ^^^ (crc % 256)
  let tmp := (tmp ^^^ (tmp <<< 4)) % 256
  ((crc >>> 8) ^^^ (tmp <<< 8) ^^^ (tmp <<< 3) ^^^ (tmp >>> 4)) % 65536

/-- `accumulate_string(s, crc)`: accumulate `ord(char)` for each character. -/
def accumulate_string (s : String) (crc : Nat := 0xFFFF) : Nat :=
  s.data.foldl (fun crc char => accumulate_byte char.toNat crc) crc

/-- The `TYPE_BITS` table: MAVLink type sizes in bits. -/
def TYPE_BITS : List (String × Nat) :=
  [("int8_t", 8), ("uint8_t", 8), ("char", 8),
   ("int16_t", 16), ("uint16_t", 16),
   ("int32_t", 32), ("uint32_t", 32), ("float", 32),
   ("int64_t", 64), ("uint64_t", 64), ("double", 64)]

/-- `get_base_type(type_str)`: resolve the `uint8_t_mavlink_version` alias
and strip array notation (`type_str.split('[')[0]` is the longest prefix
before the first `'['`). -/
def get_base_type (type_str : String) : String :=
  if type_str = "uint8_t_mavlink_version" then "uint8_t"
  else if type_str.data.contains '[' then
    String.mk (type_str.data.takeWhile (fun c => c != '['))
  else type_str

/-- Models Python `int(s)` on an optionally signed decimal string; `none`
is the `ValueError` raised on anything else (underscore digit separators
and non-ASCII digits are not modelled). -/
def py_int (s : String) : Option Int :=
  let t := ((s.data.dropWhile Char.isWhitespace).reverse.dropWhile
    Char.isWhitespace).reverse
  let neg : Bool := match t with | '-' :: _ => true | _ => false
  let mag := match t with
    | '-' :: rest => rest
    | '+' :: rest => rest
    | rest => rest
  if !mag.isEmpty && mag.all Char.isDigit then
    let n : Nat := mag.foldl (fun n c => 10 * n + (c.toNat - 48)) 0
    some (if neg then -(n : Int) else (n : Int))
  else none

/-- `get_array_length(type_str)`: parse the bracketed array multiplicity;
`type_str[start:end]` slices between the first `'['` and the first `']'`,
and a missing `']'` or a non-numeric slice raises (`none`). -/
def get_array_length (type_str : String) : Option Int :=
  if type_str.data.contains '[' then
    let start := type_str.data.findIdx (fun c => c == '[') + 1
    if type_str.data.contains ']' then
      let stop := type_str.data.findIdx (fun c => c == ']')
      py_int (String.mk ((type_str.data.take stop).drop start))
    else none
  else some 1

/-- `get_type_bits(type_str)`: `TYPE_BITS.get(base_type, 8)` — an
unrecognized base type silently falls back to 8 bits. -/
def get_type_bits (type_str : String) : Nat :=
  (TYPE_BITS.lookup (get_base_type type_str)).getD 8

/-- `get_type_size(type_str)`: size in bytes, `get_type_bits // 8`. -/
def get_type_size (type_str : String) : Nat :=
  get_type_bits type_str / 8

/-- One step of the stable descending insertion sort modelling Python's
stable `list.sort(key=..., reverse=True)` on field lists: `f` is placed
before the first element whose bit width does not strictly exceed `f`'s,
so an element already in the list stays ahead of `f` only when its width
is strictly larger. -/
def insert_field_by_size (f : Field) : List Field → List Field
  | [] => [f]
  | g :: gs =>
    if get_type_bits f.type < get_type_bits g.type then
      g :: insert_field_by_size f gs
    else f :: g :: gs

/-- Stable sort of fields by descending `get_type_bits`, modelling
`non_extension.sort(key=lambda f: get_type_bits(f['type']), reverse=True)`.
Python's sort is stable and every stable sort computes the same list; the
lemmas `sort_fields_by_size_pairwise` and `sort_fields_by_size_filter`
below pin the result down as the unique stable descending sort. -/
def sort_fields_by_size : List Field → List Field
  | [] => []
  | f :: fs => insert_field_by_size f (sort_fields_by_size fs)

/-- `order_fields_for_serialization(fields)`: non-extension fields sorted
by type size (largest first), then extension fields in original order. -/
def order_fields_for_serialization (fields : List Field) : List Field :=
  let non_extension := fields.filter (fun f => !f.extension)
  let extension := fields.filter (fun f => f.extension)
  sort_fields_by_size non_extension ++ extension

/-- Body of the field loop of `calculate_crc_extra`, one ordered field at
a time; `none` propagates a `ValueError` raised by `get_array_length`. -/
def crc_extra_field_loop : List Field → Nat → Option Nat
  | [], crc => some crc
  | field :: rest, crc =>
    if field.extension then crc_extra_field_loop rest crc
    else
      let base_type := get_base_type field.type
      let crc := accumulate_string (base_type ++ " ") crc
      let crc := accumulate_string (field.name ++ " ") crc
      match get_array_length field.type with
      | none => none
      | some array_length =>
        crc_extra_field_loop rest
          (if array_length > 1 then accumulate_byte array_length crc else crc)

/-- `calculate_crc_extra(message_name, fields)`: seed `0xFFFF`, accumulate
`message_name + ' '`, fold the ordered non-extension fields, and finish
with the 8-bit fold `(crc & 0xFF) ^ (crc >> 8)`. -/
def calculate_crc_extra (message_name : String) (fields : List Field) :
    Option Nat :=
  let crc := accumulate_string (message_name ++ " ") 0xFFFF
  let ordered_fields := order_fields_for_serialization fields
  (crc_extra_field_loop ordered_fields crc).map
    (fun crc => (crc % 256) ^^^ (crc >>> 8))

/-- A field record returned by `calculate_field_offsets`: the input dict
(`name`, `type`, `extension`) extended with `offset`, `size`,
`array_length` and `base_type`. -/
structure ResolvedField where
  name : String
  type : String
  extension : Bool
  offset : Int
  size : Nat
  array_length : Int
  base_type : String
deriving DecidableEq

/-- Body of the offset loop of `calculate_field_offsets`: walks the
ordered fields threading the running byte offset, returning the resolved
fields together with the final value of the offset cursor. -/
def field_offsets_loop : List Field → Int → Option (List ResolvedField × Int)
  | [], offset => some ([], offset)
  | field :: rest, offset =>
    let base_type := get_base_type field.type
    let size := get_type_size field.type
    match get_array_length field.type with
    | none => none
    | some array_length =>
      match field_offsets_loop rest (offset + (size : Int) * array_length) with
      | none => none
      | some (resolved, final) =>
        some (⟨field.name, field.type, field.extension, offset, size,
          array_length, base_type⟩ :: resolved, final)

/-- `calculate_field_offsets(fields)`: resolved fields in canonical order
with byte offsets assigned by a single pass starting at cursor 0. -/
def calculate_field_offsets (fields : List Field) :
    Option (List ResolvedField) :=
  (field_offsets_loop (order_fields_for_serialization fields) 0).map Prod.fst

/-- The HEARTBEAT field list from the module's self-test, in XML order. -/
def heartbeat_fields : List Field :=
  [⟨"type", "uint8_t", false⟩,
   ⟨"autopilot", "uint8_t", false⟩,
   ⟨"base_mode", "uint8_t", false⟩,
   ⟨"custom_mode", "uint32_t", false⟩,
   ⟨"system_status", "uint8_t", false⟩,
   ⟨"mavlink_version", "uint8_t_mavlink_version", false⟩]

/-- The SYS_STATUS field list from the module's self-test: thirteen
non-extension fields followed by three `uint32_t` extension fields. -/
def sys_status_fields : List Field :=
  [⟨"onboard_control_sensors_present", "uint32_t", false⟩,
   ⟨"onboard_control_sensors_enabled", "uint32_t", false⟩,
   ⟨"onboard_control_sensors_health", "uint32_t", false⟩,
   ⟨"load", "uint16_t", false⟩,
   ⟨"voltage_battery", "uint16_t", false⟩,
   ⟨"current_battery", "int16_t", false⟩,
   ⟨"battery_remaining", "int8_t", false⟩,
   ⟨"drop_rate_comm", "uint16_t", false⟩,
   ⟨"errors_comm", "uint16_t", false⟩,
   ⟨"errors_count1", "uint16_t", false⟩,
   ⟨"errors_count2", "uint16_t", false⟩,
   ⟨"errors_count3", "uint16_t", false⟩,
   ⟨"errors_count4", "uint16_t", false⟩,
   ⟨"onboard_control_sensors_present_extended", "uint32_t", true⟩,
   ⟨"onboard_control_sensors_enabled_extended", "uint32_t", true⟩,
   ⟨"onboard_control_sensors_health_extended", "uint32_t", true⟩]

/-- The ATTITUDE field list from the module's self-test. -/
def attitude_fields : List Field :=
  [⟨"time_boot_ms", "uint32_t", false⟩,
   ⟨"roll", "float", false⟩,
   ⟨"pitch", "float", false⟩,
   ⟨"yaw", "float", false⟩,
   ⟨"rollspeed", "float", false⟩,
   ⟨"pitchspeed", "float", false⟩,
   ⟨"yawspeed", "float", false⟩]

/-- Formalization of the spec's notion of an order-preserving shuffle:
the two field lists contain the extension fields in the same relative
order and, for each bit width `w`, the non-extension fields of width `w`
in the same relative order. -/
def same_declaration_order (l l' : List Field) : Prop :=
  l.filter (fun f => f.extension) = l'.filter (fun f => f.extension) ∧
  ∀ w : Nat,
    (l.filter (fun f => !f.extension)).filter
      (fun g => get_type_bits g.type == w)
      = (l'.filter (fun f => !f.extension)).filter
          (fun g => get_type_bits g.type == w)

/-! ## Helper lemmas -/

/-- Membership in an insertion step. -/
theorem mem_insert_field_by_size {a f : Field} :
    ∀ {l : List Field}, a ∈ insert_field_by_size f l ↔ a = f ∨ a ∈ l := by
  intro l
  induction l with
  | nil => simp [insert_field_by_size]
  | cons g gs ih =>
    by_cases hlt : get_type_bits f.type < get_type_bits g.type
    · simp only [insert_field_by_size, if_pos hlt, List.mem_cons, ih]
      try tauto
    · simp only [insert_field_by_size, if_neg hlt, List.mem_cons]
      try tauto

/-- An insertion step is a permutation with consing. -/
theorem insert_field_by_size_perm (f : Field) :
    ∀ (l : List Field), (insert_field_by_size f l).Perm (f :: l) := by
  intro l
  induction l with
  | nil => simp [insert_field_by_size]
  | cons g gs ih =>
    by_cases hlt : get_type_bits f.type < get_type_bits g.type
    · simp only [insert_field_by_size, if_pos hlt]
      exact (ih.cons g).trans (List.Perm.swap f g gs)
    · simp [insert_field_by_size, if_neg hlt]

/-- The stable sort is a permutation of its input. -/
theorem sort_fields_by_size_perm :
    ∀ (l : List Field), (sort_fields_by_size l).Perm l := by
  intro l
  induction l with
  | nil => exact List.Perm.refl _
  | cons f fs ih =>
    exact (insert_field_by_size_perm f _).trans (ih.cons f)

/-- An insertion step preserves descending sortedness by bit width. -/
theorem insert_field_by_size_pairwise {f : Field} :
    ∀ {l : List Field},
      l.Pairwise (fun a b => get_type_bits b.type ≤ get_type_bits a.type) →
      (insert_field_by_size f l).Pairwise
        (fun a b => get_type_bits b.type ≤ get_type_bits a.type) := by
  intro l
  induction l with
  | nil => simp [insert_field_by_size]
  | cons g gs ih =>
    intro h
    rw [List.pairwise_cons] at h
    by_cases hlt : get_type_bits f.type < get_type_bits g.type
    · rw [insert_field_by_size, if_pos hlt, List.pairwise_cons]
      refine ⟨?_, ih h.2⟩
      intro a ha
      rcases mem_insert_field_by_size.mp ha with rfl | ha
      · exact Nat.le_of_lt hlt
      · exact h.1 a ha
    · rw [insert_field_by_size, if_neg hlt, List.pairwise_cons]
      refine ⟨?_, List.pairwise_cons.mpr h⟩
      intro a ha
      rcases List.mem_cons.mp ha with rfl | ha
      · exact Nat.le_of_not_lt hlt
      · exact Nat.le_trans (h.1 a ha) (Nat.le_of_not_lt hlt)

/-- The stable sort is sorted by descending bit width. -/
theorem sort_fields_by_size_pairwise (l : List Field) :
    (sort_fields_by_size l).Pairwise
      (fun a b => get_type_bits b.type ≤ get_type_bits a.type) := by
  induction l with
  | nil => simp [sort_fields_by_size]
  | cons f fs ih => exact insert_field_by_size_pairwise ih

/-- Stability of an insertion step, stated through width classes: each
equal-width sublist is untouched. -/
theorem filter_insert_field_by_size (w : Nat) (f : Field) :
    ∀ (l : List Field),
      (insert_field_by_size f l).filter (fun g => get_type_bits g.type == w)
        = (f :: l).filter (fun g => get_type_bits g.type == w) := by
  intro l
  induction l with
  | nil => rfl
  | cons g gs ih =>
    by_cases hlt : get_type_bits f.type < get_type_bits g.type
    · rw [insert_field_by_size, if_pos hlt]
      by_cases hf : (get_type_bits f.type == w) = true
      · have hg : (get_type_bits g.type == w) = false := by
          rw [Nat.beq_eq_true_eq] at hf
          rw [beq_eq_false_iff_ne]
          omega
        simp only [List.filter_cons, hf, hg, ih, if_true, if_false,
          Bool.false_eq_true]
      · simp only [List.filter_cons, hf, ih, Bool.false_eq_true, if_false]
    · rw [insert_field_by_size, if_neg hlt]

/-- Stability of the stable sort: each equal-width sublist keeps its
original relative order. -/
theorem sort_fields_by_size_filter (w : Nat) :
    ∀ (l : List Field),
      (sort_fields_by_size l).filter (fun g => get_type_bits g.type == w)
        = l.filter (fun g => get_type_bits g.type == w) := by
  intro l
  induction l with
  | nil => rfl
  | cons f fs ih =>
    rw [sort_fields_by_size, filter_insert_field_by_size, List.filter_cons,
      List.filter_cons, ih]

/-- Uniqueness of a stable descending sort: a list sorted by descending
bit width is determined by its equal-width sublists. -/
theorem sorted_eq_of_filter_eq :
    ∀ (S T : List Field),
      S.Pairwise (fun a b => get_type_bits b.type ≤ get_type_bits a.type) →
      T.Pairwise (fun a b => get_type_bits b.type ≤ get_type_bits a.type) →
      (∀ w : Nat, S.filter (fun g => get_type_bits g.type == w)
        = T.filter (fun g => get_type_bits g.type == w)) →
      S = T := by
  intro S
  induction S with
  | nil =>
    intro T _ _ hF
    cases T with
    | nil => rfl
    | cons b T' =>
      exfalso
      have h := hF (get_type_bits b.type)
      simp only [List.filter_nil, List.filter_cons, beq_self_eq_true,
        if_true] at h
      exact List.cons_ne_nil _ _ h.symm
  | cons a S' ih =>
    intro T hS hT hF
    cases T with
    | nil =>
      exfalso
      have h := hF (get_type_bits a.type)
      simp only [List.filter_nil, List.filter_cons, beq_self_eq_true,
        if_true] at h
      exact List.cons_ne_nil _ _ h
    | cons b T' =>
      rw [List.pairwise_cons] at hS hT
      have hba : get_type_bits b.type = get_type_bits a.type := by
        by_contra hne
        have pb : (get_type_bits b.type == get_type_bits a.type) = false := by
          rw [beq_eq_false_iff_ne]; exact hne
        have pa : (get_type_bits a.type == get_type_bits b.type) = false := by
          rw [beq_eq_false_iff_ne]; exact fun h => hne h.symm
        have h1 := hF (get_type_bits a.type)
        simp only [List.filter_cons, beq_self_eq_true, if_true, pb,
          Bool.false_eq_true, if_false] at h1
        have haT' : a ∈ T' := by
          have : a ∈ T'.filter
              (fun g => get_type_bits g.type == get_type_bits a.type) := by
            rw [← h1]; exact List.mem_cons_self _ _
          exact List.mem_of_mem_filter this
        have h2 := hF (get_type_bits b.type)
        simp only [List.filter_cons, beq_self_eq_true, if_true, pa,
          Bool.false_eq_true, if_false] at h2
        have hbS' : b ∈ S' := by
          have : b ∈ S'.filter
              (fun g => get_type_bits g.type == get_type_bits b.type) := by
            rw [h2]; exact List.mem_cons_self _ _
          exact List.mem_of_mem_filter this
        exact hne (Nat.le_antisymm (hS.1 b hbS') (hT.1 a haT'))
      have h1 := hF (get_type_bits a.type)
      simp only [List.filter_cons, beq_self_eq_true, if_true, hba] at h1
      injection h1 with hab htail
      cases hab
      have hteq : S' = T' := by
        apply ih T' hS.2 hT.2
        intro w
        by_cases hw : get_type_bits a.type = w
        · rw [← hw]; exact htail
        · have pa : (get_type_bits a.type == w) = false := by
            rw [beq_eq_false_iff_ne]; exact hw
          have h3 := hF w
          simp only [List.filter_cons, pa, Bool.false_eq_true, if_false]
            at h3
          exact h3
      rw [hteq]

/-- A run of extension fields leaves the checksum loop state untouched. -/
theorem crc_extra_field_loop_ext {E : List Field}
    (hE : ∀ f ∈ E, f.extension = true) (crc : Nat) :
    crc_extra_field_loop E crc = some crc := by
  induction E with
  | nil => rfl
  | cons f rest ih =>
    have hf : f.extension = true := hE f (List.mem_cons_self _ _)
    simp only [crc_extra_field_loop, hf, if_true]
    exact ih (fun g hg => hE g (List.mem_cons.mpr (Or.inr hg)))

/-- Extension fields at the end of the ordered list never reach the
accumulator: the loop result over `A ++ E` is the result over `A`. -/
theorem crc_extra_field_loop_append_ext {E : List Field}
    (hE : ∀ f ∈ E, f.extension = true) :
    ∀ (A : List Field) (crc : Nat),
      crc_extra_field_loop (A ++ E) crc = crc_extra_field_loop A crc := by
  intro A
  induction A with
  | nil =>
    intro crc
    simpa using crc_extra_field_loop_ext hE crc
  | cons f A' ih =>
    intro crc
    rw [List.cons_append]
    by_cases hf : f.extension
    · simp only [crc_extra_field_loop, hf, if_true]
      exact ih crc
    · simp only [crc_extra_field_loop, hf, if_false, Bool.false_eq_true]
      cases h : get_array_length f.type with
      | none => rfl
      | some len => exact ih _

/-- The checksum of a message never looks at extension fields: dropping
them from the input changes nothing. -/
theorem calculate_crc_extra_filter (name : String) (fields : List Field) :
    calculate_crc_extra name fields
      = calculate_crc_extra name (fields.filter (fun f => !f.extension)) := by
  have h1 : (fields.filter (fun f => !f.extension)).filter
      (fun f => !f.extension) = fields.filter (fun f => !f.extension) :=
    List.filter_eq_self.mpr (fun a ha => (List.mem_filter.mp ha).2)
  have h2 : (fields.filter (fun f => !f.extension)).filter
      (fun f => f.extension) = [] :=
    List.filter_eq_nil_iff.mpr (fun a ha hex => by
      have hb := (List.mem_filter.mp ha).2
      rw [hex] at hb
      exact absurd hb (by simp))
  simp only [calculate_crc_extra, order_fields_for_serialization, h1, h2,
    List.append_nil]
  rw [crc_extra_field_loop_append_ext
    (fun f hf => (List.mem_filter.mp hf).2)]

/-- Every recognized or defaulted bit width is at least 8. -/
theorem eight_le_get_type_bits (t : String) : 8 ≤ get_type_bits t := by
  unfold get_type_bits
  have hgen : ∀ (l : List (String × Nat)) (k : String),
      (∀ p ∈ l, 8 ≤ p.2) → 8 ≤ ((l.lookup k).getD 8) := by
    intro l
    induction l with
    | nil => intro k _; simp [List.lookup]
    | cons p ps ih =>
      intro k hp
      obtain ⟨s, n⟩ := p
      simp only [List.lookup]
      cases hk : k == s with
      | true =>
        simpa using hp ⟨s, n⟩ (List.mem_cons_self _ _)
      | false =>
        exact ih k (fun q hq => hp q (List.mem_cons.mpr (Or.inr hq)))
  exact hgen TYPE_BITS (get_base_type t) (by decide)

/-- Every byte size is at least 1 (the unknown-type fallback included). -/
theorem one_le_get_type_size (t : String) : 1 ≤ get_type_size t := by
  have h := eight_le_get_type_bits t
  unfold get_type_size
  omega

/-- Offsets produced by the layout loop are the prefix sums of
`size * array_length` starting from the incoming cursor, the final cursor
is the cursor plus the total, and the resolved fields embed the ordered
input fields unchanged. -/
theorem field_offsets_loop_eq :
    ∀ (fs : List Field) (off : Int) (r : List ResolvedField) (c : Int),
      field_offsets_loop fs off = some (r, c) →
      r.map (fun x => Field.mk x.name x.type x.extension) = fs ∧
      c = off + (r.map (fun x => (x.size : Int) * x.array_length)).sum ∧
      ∀ i (h : i < r.length),
        r[i].offset
          = off + ((r.take i).map
              (fun x => (x.size : Int) * x.array_length)).sum := by
  intro fs
  induction fs with
  | nil =>
    intro off r c h
    simp only [field_offsets_loop, Option.some_inj, Prod.mk.injEq] at h
    obtain ⟨rfl, rfl⟩ := h
    refine ⟨rfl, by simp, ?_⟩
    intro i hi
    exact absurd hi (by simp)
  | cons f fs ih =>
    intro off r c h
    simp only [field_offsets_loop] at h
    split at h
    · exact Option.noConfusion h
    · rename_i len hlen
      split at h
      · exact Option.noConfusion h
      · rename_i pr rest fin hrec
        simp only [Option.some_inj, Prod.mk.injEq] at h
        obtain ⟨rfl, rfl⟩ := h
        obtain ⟨ihmap, ihfin, ihoff⟩ := ih _ _ _ hrec
        refine ⟨by simp [ihmap], ?_, ?_⟩
        · rw [ihfin, List.map_cons, List.sum_cons]
          ring
        · intro i hi
          cases i with
          | zero => simp
          | succ j =>
            simp only [List.getElem_cons_succ, List.take_succ_cons,
              List.map_cons, List.sum_cons]
            rw [ihoff j (by simpa using hi)]
            ring

/-- The layout loop succeeds whenever every array length resolves. -/
theorem field_offsets_loop_isSome :
    ∀ (fs : List Field) (off : Int),
      (∀ f ∈ fs, (get_array_length f.type).isSome) →
      ∃ pr, field_offsets_loop fs off = some pr := by
  intro fs
  induction fs with
  | nil => intro off _; exact ⟨([], off), rfl⟩
  | cons f fs ih =>
    intro off h
    have hf := h f (List.mem_cons_self _ _)
    cases hlen : get_array_length f.type with
    | none => rw [hlen] at hf; exact absurd hf (by simp)
    | some len =>
      obtain ⟨⟨rest, fin⟩, hrec⟩ := ih
        (off + (get_type_size f.type : Int) * len)
        (fun g hg => h g (List.mem_cons.mpr (Or.inr hg)))
      refine ⟨(⟨f.name, f.type, f.extension, off, get_type_size f.type,
        len, get_base_type f.type⟩ :: rest, fin), ?_⟩
      simp only [field_offsets_loop, hlen, hrec]

/-- With positive array lengths the laid-out ranges are consecutive:
every offset is at or after the incoming cursor and each field's range
ends before the next field's begins. -/
theorem field_offsets_loop_bounds :
    ∀ (fs : List Field) (off : Int) (r : List ResolvedField) (c : Int),
      field_offsets_loop fs off = some (r, c) →
      (∀ f ∈ fs, 1 ≤ (get_array_length f.type).getD 0) →
      (∀ x ∈ r, off ≤ x.offset) ∧
      r.Pairwise (fun x y =>
        x.offset + (x.size : Int) * x.array_length ≤ y.offset) := by
  intro fs
  induction fs with
  | nil =>
    intro off r c h _
    simp only [field_offsets_loop, Option.some_inj, Prod.mk.injEq] at h
    obtain ⟨rfl, rfl⟩ := h
    simp
  | cons f fs ih =>
    intro off r c h hpos
    simp only [field_offsets_loop] at h
    split at h
    · exact Option.noConfusion h
    · rename_i len hlen
      split at h
      · exact Option.noConfusion h
      · rename_i pr rest fin hrec
        simp only [Option.some_inj, Prod.mk.injEq] at h
        obtain ⟨rfl, rfl⟩ := h
        have hlen1 : 1 ≤ len := by
          have := hpos f (List.mem_cons_self _ _)
          rw [hlen] at this
          simpa using this
        have hsz : 1 ≤ (get_type_size f.type : Int) := by
          exact_mod_cast one_le_get_type_size f.type
        have hstep : (1 : Int) ≤ (get_type_size f.type : Int) * len :=
          le_trans (by omega) (mul_le_mul hsz hlen1 (by omega) (by omega))
        obtain ⟨ihlo, ihpw⟩ := ih _ _ _ hrec
          (fun g hg => hpos g (List.mem_cons.mpr (Or.inr hg)))
        constructor
        · intro x hx
          rcases List.mem_cons.mp hx with rfl | hx
          · exact le_refl _
          · have := ihlo x hx
            omega
        · rw [List.pairwise_cons]
          refine ⟨?_, ihpw⟩
          intro y hy
          have := ihlo y hy
          simpa using this

/-- Members of the canonical order are members of the input. -/
theorem mem_order_fields {f : Field} {l : List Field}
    (h : f ∈ order_fields_for_serialization l) : f ∈ l := by
  unfold order_fields_for_serialization at h
  rcases List.mem_append.mp h with h | h
  · exact (List.mem_filter.mp ((sort_fields_by_size_perm _).mem_iff.mp h)).1
  · exact (List.mem_filter.mp h).1

/-- An order-preserving shuffle leaves the canonical order unchanged. -/
theorem order_fields_eq_of_same_declaration_order {l l' : List Field}
    (h : same_declaration_order l' l) :
    order_fields_for_serialization l' = order_fields_for_serialization l := by
  simp only [order_fields_for_serialization]
  have hsort : sort_fields_by_size (l'.filter (fun f => !f.extension))
      = sort_fields_by_size (l.filter (fun f => !f.extension)) := by
    apply sorted_eq_of_filter_eq _ _ (sort_fields_by_size_pairwise _)
      (sort_fields_by_size_pairwise _)
    intro w
    rw [sort_fields_by_size_filter, sort_fields_by_size_filter]
    exact h.2 w
  rw [hsort, h.1]

/-- Equal layouts force equal canonical orders (each resolved record
embeds its source field). -/
theorem ordered_eq_of_offsets_eq {l l' : List Field}
    (hs : ∀ f ∈ l, (get_array_length f.type).isSome)
    (hs' : ∀ f ∈ l', (get_array_length f.type).isSome)
    (heq : calculate_field_offsets l' = calculate_field_offsets l) :
    order_fields_for_serialization l' = order_fields_for_serialization l := by
  obtain ⟨⟨r, c⟩, hr⟩ := field_offsets_loop_isSome
    (order_fields_for_serialization l) 0
    (fun f hf => hs f (mem_order_fields hf))
  obtain ⟨⟨r', c'⟩, hr'⟩ := field_offsets_loop_isSome
    (order_fields_for_serialization l') 0
    (fun f hf => hs' f (mem_order_fields hf))
  unfold calculate_field_offsets at heq
  rw [hr, hr'] at heq
  simp only [Option.map_some', Option.some_inj] at heq
  have e := (field_offsets_loop_eq _ _ _ _ hr).1
  have e' := (field_offsets_loop_eq _ _ _ _ hr').1
  rw [← e, ← e', heq]

/-- A permutation with equal canonical orders is order-preserving. -/
theorem sdo_of_ordered_eq {l l' : List Field} (hperm : l'.Perm l)
    (h : order_fields_for_serialization l' = order_fields_for_serialization l) :
    same_declaration_order l' l := by
  unfold order_fields_for_serialization at h
  have hlen : (sort_fields_by_size (l'.filter (fun f => !f.extension))).length
      = (sort_fields_by_size (l.filter (fun f => !f.extension))).length := by
    rw [(sort_fields_by_size_perm _).length_eq,
      (sort_fields_by_size_perm _).length_eq]
    exact (hperm.filter _).length_eq
  obtain ⟨hs, he⟩ := List.append_inj h hlen
  refine ⟨he, ?_⟩
  intro w
  rw [← sort_fields_by_size_filter w (l'.filter (fun f => !f.extension)),
    ← sort_fields_by_size_filter w (l.filter (fun f => !f.extension)), hs]

/-! ## Claims -/

/-- Claim C1: for the canonical HEARTBEAT field set (five `uint8_t`-wide
fields and one `uint32_t`, in declaration order), `calculate_crc_extra`
returns exactly 50. -/
theorem heartbeat_crc_extra :
    calculate_crc_extra "HEARTBEAT" heartbeat_fields = some 50 := by
  decide

/-- Claim C2: for the canonical SYS_STATUS field set (thirteen
non-extension fields plus three `uint32_t` extension fields),
`calculate_crc_extra` returns exactly 124, and removing or renaming the
extension fields does not change the result. -/
theorem sys_status_crc_extra :
    calculate_crc_extra "SYS_STATUS" sys_status_fields = some 124 ∧
    calculate_crc_extra "SYS_STATUS"
      (sys_status_fields.filter (fun f => !f.extension)) = some 124 ∧
    ∀ n1 n2 n3 : String,
      calculate_crc_extra "SYS_STATUS"
        (sys_status_fields.filter (fun f => !f.extension) ++
          [⟨n1, "uint32_t", true⟩, ⟨n2, "uint32_t", true⟩,
            ⟨n3, "uint32_t", true⟩]) = some 124 := by
  refine ⟨by decide, by decide, ?_⟩
  intro n1 n2 n3
  rw [calculate_crc_extra_filter, List.filter_append]
  have hext : ([⟨n1, "uint32_t", true⟩, ⟨n2, "uint32_t", true⟩,
      ⟨n3, "uint32_t", true⟩] : List Field).filter
        (fun f => !f.extension) = [] := rfl
  rw [hext, List.append_nil]
  decide

/-- Claim C3: the canonical order is the non-extension fields stably
sorted by descending bit width (equal-width fields keep their relative
declaration order, expressed by the equal-width sublists being
untouched), followed by the extension fields in declaration order. -/
theorem order_fields_for_serialization_spec (fields : List Field) :
    ∃ sorted_non_ext : List Field,
      order_fields_for_serialization fields
        = sorted_non_ext ++ fields.filter (fun f => f.extension) ∧
      sorted_non_ext.Pairwise
        (fun a b => get_type_bits b.type ≤ get_type_bits a.type) ∧
      ∀ w : Nat,
        sorted_non_ext.filter (fun g => get_type_bits g.type == w)
          = (fields.filter (fun f => !f.extension)).filter
              (fun g => get_type_bits g.type == w) :=
  ⟨sort_fields_by_size (fields.filter (fun f => !f.extension)), rfl,
    sort_fields_by_size_pairwise _, fun w => sort_fields_by_size_filter w _⟩

/-- Claim C5 (the code, at the failing input): a base type absent from
`TYPE_BITS` is not surfaced as an error — the lookup silently defaults
to a width of 8 bits / 1 byte. -/
theorem unknown_base_type_silent_default :
    TYPE_BITS.lookup "quaternion_t" = none ∧
    get_type_bits "quaternion_t" = 8 ∧
    get_type_size "quaternion_t" = 1 := by
  decide

/-- Claim C8: `crc16_mcrf4xx` is the left fold of the single-byte
transition `accumulate_byte` over the byte sequence, from the same
initial state; on byte inputs 0–255 the two byte-step formulas agree. -/
theorem crc16_mcrf4xx_eq_accumulate (data : List Nat) (crc : Nat)
    (h : ∀ b ∈ data, b < 256) :
    crc16_mcrf4xx data crc
      = data.foldl
          (fun crc (byte : Nat) => accumulate_byte (byte : Int) crc)
          crc := by
  unfold crc16_mcrf4xx
  apply List.foldl_ext
  intro a b hb
  have hb' : b < 256 := h b hb
  simp only [accumulate_byte]
  have h256 : ((b : Int) % 256).toNat = b := by omega
  rw [h256]

/-- Witness for C8 at a concrete byte string and seed. -/
theorem crc16_mcrf4xx_eq_accumulate_witness :
    (∀ b ∈ [0, 7, 255], b < 256) ∧
    crc16_mcrf4xx [0, 7, 255] 0xFFFF
      = [0, 7, 255].foldl
          (fun crc (byte : Nat) => accumulate_byte (byte : Int) crc)
          0xFFFF :=
  ⟨by decide, crc16_mcrf4xx_eq_accumulate [0, 7, 255] 0xFFFF (by decide)⟩

/-- Claim C9: on an empty field list the checksum is the 8-bit fold of
the name-plus-space accumulation alone, and a field list made solely of
extension fields yields the same value as the empty field list. -/
theorem crc_extra_name_only (message_name : String) (fields : List Field)
    (hext : ∀ f ∈ fields, f.extension = true) :
    calculate_crc_extra message_name [] =
      some ((accumulate_string (message_name ++ " ") 0xFFFF % 256) ^^^
        (accumulate_string (message_name ++ " ") 0xFFFF >>> 8)) ∧
    calculate_crc_extra message_name fields =
      calculate_crc_extra message_name [] := by
  refine ⟨rfl, ?_⟩
  rw [calculate_crc_extra_filter]
  have hnil : fields.filter (fun f => !f.extension) = [] :=
    List.filter_eq_nil_iff.mpr (fun a ha hb => by
      rw [hext a ha] at hb
      exact absurd hb (by simp))
  rw [hnil]

/-- Witness for C9 at a concrete name and a one-element extension-only
field list. -/
theorem crc_extra_name_only_witness :
    (∀ f ∈ [(⟨"e1", "uint8_t", true⟩ : Field)], f.extension = true) ∧
    (calculate_crc_extra "X" [] =
      some ((accumulate_string ("X" ++ " ") 0xFFFF % 256) ^^^
        (accumulate_string ("X" ++ " ") 0xFFFF >>> 8)) ∧
    calculate_crc_extra "X" [⟨"e1", "uint8_t", true⟩] =
      calculate_crc_extra "X" []) :=
  ⟨by decide, crc_extra_name_only "X" [⟨"e1", "uint8_t", true⟩] (by decide)⟩

/-- Counterexample to C4 as stated (with no proviso on the field list):
two fields with unparseable array syntax make both permutations raise
the same error, so checksum and layout results coincide even though the
permutation does not preserve the relative order of the two equal-width
non-extension fields. -/
theorem checksum_layout_perm_iff_counterexample :
    (([⟨"b", "y[", false⟩, ⟨"a", "x[", false⟩] : List Field).Perm
      [⟨"a", "x[", false⟩, ⟨"b", "y[", false⟩]) ∧
    calculate_crc_extra "M" [⟨"b", "y[", false⟩, ⟨"a", "x[", false⟩]
      = calculate_crc_extra "M" [⟨"a", "x[", false⟩, ⟨"b", "y[", false⟩] ∧
    calculate_field_offsets [⟨"b", "y[", false⟩, ⟨"a", "x[", false⟩]
      = calculate_field_offsets [⟨"a", "x[", false⟩, ⟨"b", "y[", false⟩] ∧
    ¬ same_declaration_order
        [⟨"b", "y[", false⟩, ⟨"a", "x[", false⟩]
        [⟨"a", "x[", false⟩, ⟨"b", "y[", false⟩] := by
  refine ⟨by decide, by decide, by decide, ?_⟩
  intro h
  exact absurd (h.2 8) (by decide)

/-- Claim C4 (amended with the proviso that every field's array length
resolves, so that a checksum and a layout are actually yielded): a
permutation of the field list yields the same checksum and the same
layout if and only if it preserves the relative order of non-extension
fields of equal bit width and the relative order of extension fields. -/
theorem checksum_layout_perm_iff (message_name : String)
    (fields fields' : List Field) (hperm : fields'.Perm fields)
    (hres : ∀ f ∈ fields, (get_array_length f.type).isSome) :
    (calculate_crc_extra message_name fields'
        = calculate_crc_extra message_name fields ∧
      calculate_field_offsets fields' = calculate_field_offsets fields) ↔
    same_declaration_order fields' fields := by
  constructor
  · rintro ⟨-, hlay⟩
    have hres' : ∀ f ∈ fields', (get_array_length f.type).isSome :=
      fun f hf => hres f (hperm.subset hf)
    exact sdo_of_ordered_eq hperm (ordered_eq_of_offsets_eq hres hres' hlay)
  · intro hsdo
    have hord := order_fields_eq_of_same_declaration_order hsdo
    constructor
    · simp only [calculate_crc_extra, hord]
    · simp only [calculate_field_offsets, hord]

/-- Witness for C4: swapping two non-extension fields of different
widths preserves checksum and layout, and the iff instantiates. -/
theorem checksum_layout_perm_iff_witness :
    (([⟨"b", "uint32_t", false⟩, ⟨"a", "uint8_t", false⟩] :
        List Field).Perm
      [⟨"a", "uint8_t", false⟩, ⟨"b", "uint32_t", false⟩]) ∧
    (∀ f ∈ ([⟨"a", "uint8_t", false⟩, ⟨"b", "uint32_t", false⟩] :
        List Field), (get_array_length f.type).isSome) ∧
    ((calculate_crc_extra "M"
        [⟨"b", "uint32_t", false⟩, ⟨"a", "uint8_t", false⟩]
          = calculate_crc_extra "M"
            [⟨"a", "uint8_t", false⟩, ⟨"b", "uint32_t", false⟩] ∧
      calculate_field_offsets
        [⟨"b", "uint32_t", false⟩, ⟨"a", "uint8_t", false⟩]
          = calculate_field_offsets
            [⟨"a", "uint8_t", false⟩, ⟨"b", "uint32_t", false⟩]) ↔
    same_declaration_order
      [⟨"b", "uint32_t", false⟩, ⟨"a", "uint8_t", false⟩]
      [⟨"a", "uint8_t", false⟩, ⟨"b", "uint32_t", false⟩]) :=
  ⟨by decide, by decide,
    checksum_layout_perm_iff "M" _ _ (by decide) (by decide)⟩

/-- Counterexample to C6 as stated: a bracketed array length of 0 does
not fail — resolution returns `0` and the field still contributes its
type and name to the checksum (the checksum differs from the empty
message's). -/
theorem zero_array_length_not_rejected :
    get_array_length "uint8_t[0]" = some 0 ∧
    (calculate_crc_extra "M" [⟨"a", "uint8_t[0]", false⟩]).isSome ∧
    calculate_crc_extra "M" [⟨"a", "uint8_t[0]", false⟩]
      ≠ calculate_crc_extra "M" [] := by
  decide

/-- Claim C6 (amended to what the code does): a bracketed array length
`len ≤ 0` is resolved to `len` itself without error and without being
clamped to 1; such a field still contributes its base type and name (but
no array-length byte) to the checksum, and appears in the layout with
`array_length = len` contributing `size * len` bytes. -/
theorem nonpositive_array_length_behavior
    (message_name fname type_str : String) (len : Int)
    (hlen : get_array_length type_str = some len) (hle : len ≤ 0) :
    calculate_crc_extra message_name [⟨fname, type_str, false⟩]
      = some
        ((accumulate_string (fname ++ " ")
            (accumulate_string (get_base_type type_str ++ " ")
              (accumulate_string (message_name ++ " ") 0xFFFF)) % 256) ^^^
          (accumulate_string (fname ++ " ")
            (accumulate_string (get_base_type type_str ++ " ")
              (accumulate_string (message_name ++ " ") 0xFFFF)) >>> 8)) ∧
    calculate_field_offsets [⟨fname, type_str, false⟩]
      = some [⟨fname, type_str, false, 0, get_type_size type_str, len,
          get_base_type type_str⟩] := by
  have hord : order_fields_for_serialization [⟨fname, type_str, false⟩]
      = [⟨fname, type_str, false⟩] := rfl
  constructor
  · simp only [calculate_crc_extra, hord, crc_extra_field_loop, hlen,
      Bool.false_eq_true, if_false]
    rw [if_neg (by omega : ¬(len > 1))]
    rfl
  · simp only [calculate_field_offsets, hord, field_offsets_loop, hlen]
    rfl

/-- Witness for the amended C6 at the concrete type string
`uint8_t[0]`. -/
theorem nonpositive_array_length_behavior_witness :
    (get_array_length "uint8_t[0]" = some 0 ∧ (0 : Int) ≤ 0) ∧
    (calculate_crc_extra "M" [⟨"a", "uint8_t[0]", false⟩]
      = some
        ((accumulate_string ("a" ++ " ")
            (accumulate_string (get_base_type "uint8_t[0]" ++ " ")
              (accumulate_string ("M" ++ " ") 0xFFFF)) % 256) ^^^
          (accumulate_string ("a" ++ " ")
            (accumulate_string (get_base_type "uint8_t[0]" ++ " ")
              (accumulate_string ("M" ++ " ") 0xFFFF)) >>> 8)) ∧
    calculate_field_offsets [⟨"a", "uint8_t[0]", false⟩]
      = some [⟨"a", "uint8_t[0]", false, 0, get_type_size "uint8_t[0]", 0,
          get_base_type "uint8_t[0]"⟩]) :=
  ⟨⟨by decide, by decide⟩,
    nonpositive_array_length_behavior "M" "a" "uint8_t[0]" 0 (by decide)
      (by decide)⟩

/-- Claim C7: when every array length resolves to a positive value, the
layout succeeds, assigns every field of the canonical order (extension
fields included, continuing from the same cursor) the offset equal to
the sum of `size * array_length` over the preceding fields starting from
cursor 0, finishes with the cursor equal to the total sum, and no two
fields' byte ranges overlap. -/
theorem calculate_field_offsets_spec (fields : List Field)
    (hres : ∀ f ∈ fields, 1 ≤ (get_array_length f.type).getD 0) :
    ∃ r : List ResolvedField,
      calculate_field_offsets fields = some r ∧
      r.map (fun x => Field.mk x.name x.type x.extension)
        = order_fields_for_serialization fields ∧
      (∀ i (h : i < r.length),
        r[i].offset = ((r.take i).map
          (fun x => (x.size : Int) * x.array_length)).sum) ∧
      field_offsets_loop (order_fields_for_serialization fields) 0
        = some (r, (r.map (fun x => (x.size : Int) * x.array_length)).sum) ∧
      r.Pairwise (fun x y =>
        x.offset + (x.size : Int) * x.array_length ≤ y.offset ∨
        y.offset + (y.size : Int) * y.array_length ≤ x.offset) := by
  have hpos : ∀ f ∈ order_fields_for_serialization fields,
      1 ≤ (get_array_length f.type).getD 0 :=
    fun f hf => hres f (mem_order_fields hf)
  have hsome : ∀ f ∈ order_fields_for_serialization fields,
      (get_array_length f.type).isSome := by
    intro f hf
    have h1 := hpos f hf
    cases h : get_array_length f.type with
    | none => rw [h] at h1; exact absurd h1 (by simp)
    | some len => simp
  obtain ⟨⟨r, c⟩, hr⟩ := field_offsets_loop_isSome _ 0 hsome
  obtain ⟨hmap, hc, hoff⟩ := field_offsets_loop_eq _ _ _ _ hr
  obtain ⟨-, hpw⟩ := field_offsets_loop_bounds _ _ _ _ hr hpos
  refine ⟨r, ?_, hmap, ?_, ?_, ?_⟩
  · unfold calculate_field_offsets
    rw [hr]
    rfl
  · intro i h
    have := hoff i h
    omega
  · rw [hr, hc]
    norm_num
  · exact hpw.imp (fun h => Or.inl h)

/-- Witness for C7 at the HEARTBEAT field list. -/
theorem calculate_field_offsets_spec_witness :
    (∀ f ∈ heartbeat_fields, 1 ≤ (get_array_length f.type).getD 0) ∧
    (∃ r : List ResolvedField,
      calculate_field_offsets heartbeat_fields = some r ∧
      r.map (fun x => Field.mk x.name x.type x.extension)
        = order_fields_for_serialization heartbeat_fields ∧
      (∀ i (h : i < r.length),
        r[i].offset = ((r.take i).map
          (fun x => (x.size : Int) * x.array_length)).sum) ∧
      field_offsets_loop (order_fields_for_serialization heartbeat_fields) 0
        = some (r, (r.map (fun x => (x.size : Int) * x.array_length)).sum) ∧
      r.Pairwise (fun x y =>
        x.offset + (x.size : Int) * x.array_length ≤ y.offset ∨
        y.offset + (y.size : Int) * y.array_length ≤ x.offset)) :=
  ⟨by decide, calculate_field_offsets_spec heartbeat_fields (by decide)⟩

/-- Claim C10: `accumulate_byte` masks its byte argument to the low
8 bits, so any integer — in particular an out-of-range character code
point — is silently truncated modulo 256 rather than rejected. -/
theorem accumulate_byte_masks_byte (byte : Int) (crc : Nat) :
    accumulate_byte byte crc = accumulate_byte (byte % 256) crc := by
  unfold accumulate_byte
  rw [Int.emod_emod_of_dvd _ dvd_rfl]

end CrcCalculator
